import Mathlib

/-!
Verification of the Cwago fixed-size pool allocator
(`cwago/cwago_utility/src/mem.rs`).

The Rust code is shallowly embedded over an explicit byte-addressed
memory.  Addresses and machine words are natural numbers; a machine word
occupies `PTR_SIZE = 8` consecutive bytes (the source targets a 64-bit
platform, `size_of::<*mut u8>() = 8`), stored little-endian, so a word
store truncates its value modulo `2 ^ 64` exactly as the hardware does.
The system allocator is an opaque service: `Pool.new` takes the address
it would return (`0` models allocation failure, i.e. a null return).

Notes on the source:
* `Pool::alloc` writes `self.count -= 1`, but `Pool` has no field
  `count` (its fields are `elements_count` and `current_count`); the
  only mutable counter is `current_count`, which `new` initialises to
  the full element count, so the embedding decrements `current_count`.
* `Pool::is_manage` and `Pool::dealloc` are invoked by the conformance
  test `test_pool` but their bodies are not present in the source tree;
  they are modelled from the specification, as marked on their
  definitions.
* Rust's `usize` arithmetic is embedded with release-profile
  (wrapping) overflow semantics: products and `next_power_of_two`
  results are reduced modulo `2 ^ 64`.
-/

namespace Cwago

/-- Byte-addressed memory: address to byte value. -/
def Mem : Type := Nat → Nat

/-- Size in bytes of a machine word / pointer (`size_of::<*mut u8>()`
on the 64-bit target). -/
def PTR_SIZE : Nat := 8

/-- Store one byte (`*p = v as u8`). -/
def byteWrite (m : Mem) (a v : Nat) : Mem :=
  fun x => if x = a then v % 256 else m x

/-- Load one byte. -/
def byteRead (m : Mem) (a : Nat) : Nat := m a % 256

/-- Store a machine word at `a`, little-endian over
`[a, a + PTR_SIZE)`; the value is truncated to 64 bits byte by byte. -/
def wordWrite (m : Mem) (a v : Nat) : Mem :=
  fun x => if a ≤ x ∧ x < a + PTR_SIZE then v / 256 ^ (x - a) % 256 else m x

/-- Reassemble `k` little-endian bytes starting at `a`. -/
def readBytes (m : Mem) (a : Nat) : Nat → Nat
  | 0 => 0
  | k + 1 => m a % 256 + 256 * readBytes m (a + 1) k

/-- Load the machine word stored at `[a, a + PTR_SIZE)`. -/
def wordRead (m : Mem) (a : Nat) : Nat := readBytes m a PTR_SIZE

theorem readBytes_congr {m m' : Mem} {a : Nat} (k : Nat)
    (h : ∀ i, i < k → m (a + i) = m' (a + i)) :
    readBytes m a k = readBytes m' a k := by
  induction k generalizing a with
  | zero => rfl
  | succ k ih =>
    have h0 : m a = m' a := by simpa using h 0 (Nat.succ_pos k)
    have ht : readBytes m (a + 1) k = readBytes m' (a + 1) k := by
      refine ih ?_
      intro i hi
      have := h (i + 1) (Nat.succ_lt_succ hi)
      simpa [Nat.add_assoc, Nat.add_comm 1 i] using this
    simp [readBytes, h0, ht]

theorem mod256_mod256 (n : Nat) : n % 256 % 256 = n % 256 :=
  Nat.mod_mod_of_dvd n dvd_rfl

theorem readBytes_of_bytes {m : Mem} {a v : Nat} (k : Nat)
    (h : ∀ i, i < k → m (a + i) = v / 256 ^ i % 256) :
    readBytes m a k = v % 256 ^ k := by
  induction k generalizing a v with
  | zero => simp [readBytes, Nat.mod_one]
  | succ k ih =>
    have h0 : m a = v % 256 := by simpa using h 0 (Nat.succ_pos k)
    have ht : readBytes m (a + 1) k = v / 256 % 256 ^ k := by
      refine ih ?_
      intro i hi
      have hstep := h (i + 1) (Nat.succ_lt_succ hi)
      have h256 : v / 256 / 256 ^ i = v / 256 ^ (i + 1) := by
        rw [Nat.div_div_eq_div_mul, ← pow_succ']
      rw [h256]
      simpa [Nat.add_assoc, Nat.add_comm 1 i] using hstep
    have hmod : v % 256 ^ (k + 1) = v % 256 + 256 * (v / 256 % 256 ^ k) := by
      rw [pow_succ', Nat.mod_mul]
    simp [readBytes, h0, ht, hmod, mod256_mod256]

theorem wordRead_write_same (m : Mem) (a v : Nat) :
    wordRead (wordWrite m a v) a = v % 2 ^ 64 := by
  have : wordRead (wordWrite m a v) a = v % 256 ^ PTR_SIZE := by
    refine readBytes_of_bytes PTR_SIZE ?_
    intro i hi
    have h1 : a ≤ a + i := Nat.le_add_right a i
    have h2 : a + i < a + PTR_SIZE := Nat.add_lt_add_left hi a
    simp [wordWrite, h1, h2, Nat.add_sub_cancel_left, mod256_mod256]
  rw [this]
  norm_num [PTR_SIZE]

theorem wordRead_write_disjoint (m : Mem) {a b : Nat} (v : Nat)
    (h : a + PTR_SIZE ≤ b ∨ b + PTR_SIZE ≤ a) :
    wordRead (wordWrite m a v) b = wordRead m b := by
  refine readBytes_congr PTR_SIZE ?_
  intro i hi
  have hout : ¬ (a ≤ b + i ∧ b + i < a + PTR_SIZE) := by
    rcases h with h | h
    · intro hc; omega
    · intro hc; omega
  simp [wordWrite, hout]

theorem wordRead_byteWrite_disjoint (m : Mem) {a b : Nat} (v : Nat)
    (h : b + PTR_SIZE ≤ a ∨ a < b) :
    wordRead (byteWrite m a v) b = wordRead m b := by
  refine readBytes_congr PTR_SIZE ?_
  intro i hi
  have hne : b + i ≠ a := by omega
  simp [byteWrite, hne]

theorem byteRead_write_same (m : Mem) (a v : Nat) :
    byteRead (byteWrite m a v) a = v % 256 := by
  simp [byteRead, byteWrite, mod256_mod256]

theorem byteRead_write_other (m : Mem) {a b : Nat} (v : Nat) (h : b ≠ a) :
    byteRead (byteWrite m a v) b = byteRead m b := by
  simp [byteRead, byteWrite, h]

theorem wordRead_lt (m : Mem) (a : Nat) : wordRead m a < 2 ^ 64 := by
  have gen : ∀ k a, readBytes m a k < 256 ^ k := by
    intro k
    induction k with
    | zero => intro a; simp [readBytes]
    | succ k ih =>
      intro a
      have h1 : m a % 256 < 256 := Nat.mod_lt _ (by norm_num)
      have h2 : readBytes m (a + 1) k < 256 ^ k := ih (a + 1)
      have hs : (256 : Nat) ^ (k + 1) = 256 * 256 ^ k := by
        rw [pow_succ, Nat.mul_comm]
      have : m a % 256 + 256 * readBytes m (a + 1) k < 256 ^ (k + 1) := by
        rw [hs]; omega
      simpa [readBytes] using this
  have := gen PTR_SIZE a
  have he : (256 : Nat) ^ PTR_SIZE = 2 ^ 64 := by norm_num [PTR_SIZE]
  rw [he] at this
  exact this

/-- Fueled core of `next_power_of_two`: for `2 ≤ n`,
`next_power_of_two n = 2 * next_power_of_two ((n + 1) / 2)`.  The fuel
argument only bounds the recursion depth; `nextPow2` supplies `n`
itself, which is always sufficient. -/
def nextPow2Aux : Nat → Nat → Nat
  | 0, _ => 1
  | f + 1, n => if n ≤ 1 then 1 else 2 * nextPow2Aux f ((n + 1) / 2)

/-- Mathematical value of Rust's `usize::next_power_of_two` (before
64-bit truncation): the least power of two that is `≥ n`. -/
def nextPow2 (n : Nat) : Nat := nextPow2Aux n n

/-- `v` is the least power of two with `n ≤ v`. -/
def IsLeastPow2 (v n : Nat) : Prop :=
  (∃ k, v = 2 ^ k) ∧ n ≤ v ∧ ∀ w, (∃ k, w = 2 ^ k) → n ≤ w → v ≤ w

theorem nextPow2Aux_spec :
    ∀ f n, n ≤ f + 1 → IsLeastPow2 (nextPow2Aux f n) n := by
  intro f
  induction f with
  | zero =>
    intro n hn
    refine ⟨⟨0, rfl⟩, by simpa [nextPow2Aux] using hn, ?_⟩
    intro w ⟨k, hk⟩ _
    have : 1 ≤ w := hk ▸ Nat.one_le_two_pow
    simpa [nextPow2Aux] using this
  | succ f ih =>
    intro n hn
    by_cases h1 : n ≤ 1
    · refine ⟨⟨0, by simp [nextPow2Aux, h1]⟩, by simp [nextPow2Aux, h1], ?_⟩
      intro w ⟨k, hk⟩ _
      have : 1 ≤ w := hk ▸ Nat.one_le_two_pow
      simpa [nextPow2Aux, h1] using this
    · have hrec : (n + 1) / 2 ≤ f + 1 := by omega
      obtain ⟨⟨k, hk⟩, hge, hmin⟩ := ih ((n + 1) / 2) hrec
      have hval : nextPow2Aux (f + 1) n = 2 * nextPow2Aux f ((n + 1) / 2) := by
        simp [nextPow2Aux, h1]
      refine ⟨⟨k + 1, by rw [hval, hk, pow_succ']⟩, ?_, ?_⟩
      · rw [hval]; omega
      · intro w ⟨j, hj⟩ hw
        have hj1 : 1 ≤ j := by
          rcases Nat.eq_zero_or_pos j with h0 | h0
          · subst h0; simp at hj; omega
          · exact h0
        have hhalf : (n + 1) / 2 ≤ 2 ^ (j - 1) := by
          have h2j : 2 ^ j = 2 * 2 ^ (j - 1) := by
            conv_lhs => rw [show j = (j - 1) + 1 by omega]
            rw [pow_succ']
          omega
        have := hmin (2 ^ (j - 1)) ⟨j - 1, rfl⟩ hhalf
        have h2j : w = 2 * 2 ^ (j - 1) := by
          rw [hj]
          conv_lhs => rw [show j = (j - 1) + 1 by omega]
          rw [pow_succ']
        rw [hval, h2j]
        omega

theorem nextPow2_spec (n : Nat) : IsLeastPow2 (nextPow2 n) n :=
  nextPow2Aux_spec n n (Nat.le_succ n)

theorem nextPow2_ge (n : Nat) : n ≤ nextPow2 n := (nextPow2_spec n).2.1

theorem nextPow2_le_of_le {n b : Nat} (hb : ∃ k, b = 2 ^ k) (h : n ≤ b) :
    nextPow2 n ≤ b := (nextPow2_spec n).2.2 b hb h

/-- The pool state (`struct Pool` of `mem.rs`).  Rust's `Layout` is a
size/alignment pair, flattened here into `layoutSize`/`layoutAlign`.
Raw pointers are addresses (`Nat`), with `0` for `null_mut()`. -/
structure Pool where
  elements_count : Nat
  current_count : Nat
  layoutSize : Nat
  layoutAlign : Nat
  buffer : Nat
  top : Nat
  deriving Repr, DecidableEq

/-- The free-list bootstrap loop of `Pool::new`: for `i` in
`0..count`, store the running `top` into the word at
`buffer + i * align` and make that slot the new `top`.  Recursion on
`count` performs iteration `i = count - 1` last, matching the loop
order. -/
def linkSlots (buffer align : Nat) : Nat → Nat × Mem → Nat × Mem
  | 0, tm => tm
  | n + 1, tm =>
    let tm' := linkSlots buffer align n tm
    let lp := buffer + n * align
    (lp, wordWrite tm'.2 lp tm'.1)

/-- `Pool::new(size, count)`.  The system allocator is opaque: `base`
is the address `alloc(layout)` returns for this request (`0` models a
null return, i.e. reservation failure), and `m` is the memory the
region is carved from.  Products and `next_power_of_two` results wrap
modulo `2 ^ 64` (release-profile `usize` semantics). -/
def Pool.new (size count : Nat) (base : Nat) (m : Mem) : Option (Pool × Mem) :=
  if size = 0 || count = 0 then none
  else
    let size := if size < PTR_SIZE then PTR_SIZE else size
    let align := nextPow2 size % 2 ^ 64
    let buf_size := align * count % 2 ^ 64
    let buf_align := nextPow2 buf_size % 2 ^ 64
    if base = 0 then none
    else
      let tm := linkSlots base align count (0, m)
      some (⟨count, count, buf_size, buf_align, base, tm.1⟩, tm.2)

/-- `Pool::alloc`.  Pops the head of the intrusive free list, or
returns null when the list is empty.  The decremented counter is
`current_count`: the source line reads `self.count -= 1`, but `Pool`
has no field `count`; `current_count` is the only counter `new`
initialises to the free-slot total. -/
def Pool.alloc (p : Pool) (m : Mem) : Pool × Nat :=
  if p.top ≠ 0 then
    ({ p with current_count := p.current_count - 1, top := wordRead m p.top }, p.top)
  else
    (p, 0)

/-- Byte distance between consecutive slots, recovered from the
layout: `new` sets `layoutSize = slot_stride * elements_count`. -/
def Pool.stride (p : Pool) : Nat := p.layoutSize / p.elements_count

/-- Modelled from the spec: the body of `Pool::is_manage` is not in
the source tree (only the conformance test calls it).  Per the spec it
returns true iff `addr` falls within
`[region_base, region_base + slot_stride * capacity)` and
`(addr - region_base) mod slot_stride = 0`. -/
def Pool.is_manage (p : Pool) (a : Nat) : Bool :=
  decide (p.buffer ≤ a) &&
  decide (a < p.buffer + p.stride * p.elements_count) &&
  decide ((a - p.buffer) % p.stride = 0)

/-- Modelled from the spec: the body of `Pool::dealloc` is not in the
source tree (only the conformance test calls it).  Per the spec it
validates ownership before mutating anything; if valid it writes the
current free-list head into `addr`'s first machine word, makes `addr`
the new head, increments the free counter and reports success,
otherwise it reports failure and changes nothing. -/
def Pool.dealloc (p : Pool) (m : Mem) (a : Nat) : Pool × Mem × Bool :=
  if p.is_manage a then
    ({ p with current_count := p.current_count + 1, top := a },
     wordWrite m a p.top, true)
  else
    (p, m, false)

/-- `k` consecutive `alloc` calls; returns the final pool and the
returned pointers in call order (`ptrs[0], ptrs[1], ...` of
`test_pool`).  `alloc` never writes memory, so `m` is threaded
unchanged. -/
def allocN (p : Pool) (m : Mem) : Nat → Pool × List Nat
  | 0 => (p, [])
  | k + 1 =>
    let r := allocN p m k
    let s := r.1.alloc m
    (s.1, r.2 ++ [s.2])

/-- `dealloc` each address of `l` in order, as the release loop of
`test_pool` does; the boolean is the conjunction of the individual
success results. -/
def deallocList (p : Pool) (m : Mem) : List Nat → Pool × Mem × Bool
  | [] => (p, m, true)
  | a :: l =>
    let r := p.dealloc m a
    let s := deallocList r.1 r.2.1 l
    (s.1, s.2.1, r.2.2 && s.2.2)

/-- The fill loop of `test_pool`: write byte `i` (as `u8`, hence mod
256) into the first byte of `ptrs[i]`, for `i` counting up from the
given start index. -/
def writeBytesAt (m : Mem) : List Nat → Nat → Mem
  | [], _ => m
  | a :: l, i => writeBytesAt (byteWrite m a i) l (i + 1)

/-- The verify loop of `test_pool`: check that the first byte of
`ptrs[i]` still reads back as byte `i`. -/
def readCheckAt (m : Mem) : List Nat → Nat → Bool
  | [], _ => true
  | a :: l, i => (byteRead m a == i % 256) && readCheckAt m l (i + 1)

/-- One lap of the reuse test: acquire every slot, check the returned
pointers are non-null, fill each slot's first byte with its index,
verify the bytes read back, then release every slot; reports whether
every check passed. -/
def Pool.cycle (p : Pool) (m : Mem) : Pool × Mem × Bool :=
  let r := allocN p m p.elements_count
  let ok1 := r.2.all (fun x => x != 0)
  let m1 := writeBytesAt m r.2 0
  let ok2 := readCheckAt m1 r.2 0
  let d := deallocList r.1 m1 r.2
  (d.1, d.2.1, ok1 && ok2 && d.2.2)

/-- `l` is the node list of the intrusive free list: starting value
`t`, each node's first machine word holding the next node's address,
ending at the null sentinel `0`. -/
def isChain (m : Mem) : Nat → List Nat → Prop
  | t, [] => t = 0
  | t, a :: l => t = a ∧ a ≠ 0 ∧ isChain m (wordRead m a) l

/-- `a` is the start address of slot `k` for some `k < capacity`. -/
def SlotStart (p : Pool) (a : Nat) : Prop :=
  ∃ k, k < p.elements_count ∧ a = p.buffer + k * p.stride

/-- Well-formedness facts about the layout that hold for every pool
`Pool::new` returns (under non-overflowing inputs) and that no
operation ever changes: the stride is at least one machine word, the
region size is exactly `stride * capacity`, the region base is
non-null, and the region fits below `2 ^ 64`. -/
def GoodPool (p : Pool) : Prop :=
  PTR_SIZE ≤ p.stride ∧ p.stride * p.elements_count = p.layoutSize ∧
  p.buffer ≠ 0 ∧ p.buffer + p.layoutSize ≤ 2 ^ 64

/-- The pool invariant: the free counter never exceeds the capacity,
and walking the free list from `top` to the null sentinel visits
exactly `current_count` pairwise-distinct slot-start addresses. -/
def PoolInv (p : Pool) (m : Mem) : Prop :=
  GoodPool p ∧ p.current_count ≤ p.elements_count ∧
  ∃ l : List Nat, isChain m p.top l ∧ l.length = p.current_count ∧
    l.Nodup ∧ ∀ a ∈ l, SlotStart p a

/-- The pool invariant in the fully-free state: every slot is on the
free list. -/
def FullFree (p : Pool) (m : Mem) : Prop :=
  GoodPool p ∧ p.current_count = p.elements_count ∧
  ∃ l : List Nat, isChain m p.top l ∧ l.length = p.elements_count ∧
    l.Nodup ∧ ∀ a ∈ l, SlotStart p a

/-- The descending slot-start list `[slot (n-1), ..., slot 1, slot 0]`
— the order in which the bootstrapped free list links the slots. -/
def descSlots (buffer align : Nat) : Nat → List Nat
  | 0 => []
  | k + 1 => (buffer + k * align) :: descSlots buffer align k

theorem take_append_getElem {α : Type u} (l : List α) :
    ∀ k (h : k < l.length), l.take k ++ [l[k]] = l.take (k + 1) := by
  induction l with
  | nil => intro k h; simp at h
  | cons a t ih =>
    intro k h
    cases k with
    | zero => simp
    | succ k =>
      have ht : k < t.length := by simpa using h
      simp [List.take_succ_cons, ih k ht]

theorem isChain_head {m : Mem} {t : Nat} {l : List Nat} (h : isChain m t l) :
    t = l.headD 0 := by
  cases l with
  | nil => simpa [isChain] using h
  | cons a l => simpa [isChain] using h.1

theorem isChain_ne_zero {m : Mem} {t : Nat} {l : List Nat} (h : isChain m t l) :
    ∀ a ∈ l, a ≠ 0 := by
  induction l generalizing t with
  | nil => intro a ha; simp at ha
  | cons b l ih =>
    intro a ha
    obtain ⟨rfl, hb, hrest⟩ := h
    rcases List.mem_cons.mp ha with rfl | ha
    · exact hb
    · exact ih hrest a ha

theorem isChain_congr {m m' : Mem} :
    ∀ (l : List Nat) (t : Nat),
      (∀ b ∈ l, wordRead m' b = wordRead m b) →
      isChain m t l → isChain m' t l := by
  intro l
  induction l with
  | nil => intro t _ h; simpa [isChain] using h
  | cons a l ih =>
    intro t hr h
    obtain ⟨hta, ha, hrest⟩ := h
    refine ⟨hta, ha, ?_⟩
    rw [hr a (List.mem_cons_self a l)]
    exact ih _ (fun b hb => hr b (List.mem_cons_of_mem a hb)) hrest

theorem isChain_drop {m : Mem} :
    ∀ (l : List Nat) (t : Nat), isChain m t l →
      ∀ k, isChain m ((l.drop k).headD 0) (l.drop k) := by
  intro l
  induction l with
  | nil => intro t _ k; simp [isChain]
  | cons a l ih =>
    intro t h k
    cases k with
    | zero =>
      have hta : t = a := h.1
      simpa using hta ▸ h
    | succ k =>
      obtain ⟨hta, _, hrest⟩ := h
      simpa using ih _ hrest k

theorem descSlots_headD (buffer align : Nat) (n : Nat) :
    (descSlots buffer align n).headD 0 =
      if n = 0 then 0 else buffer + (n - 1) * align := by
  cases n with
  | zero => simp [descSlots]
  | succ k => simp [descSlots]

theorem descSlots_length (buffer align : Nat) (n : Nat) :
    (descSlots buffer align n).length = n := by
  induction n with
  | zero => simp [descSlots]
  | succ k ih => simp [descSlots, ih]

theorem mem_descSlots {buffer align : Nat} {n a : Nat} :
    a ∈ descSlots buffer align n ↔ ∃ k, k < n ∧ a = buffer + k * align := by
  induction n with
  | zero => simp [descSlots]
  | succ n ih =>
    constructor
    · intro ha
      rcases List.mem_cons.mp ha with rfl | ha
      · exact ⟨n, Nat.lt_succ_self n, rfl⟩
      · obtain ⟨k, hk, rfl⟩ := ih.mp ha
        exact ⟨k, Nat.lt_succ_of_lt hk, rfl⟩
    · rintro ⟨k, hk, rfl⟩
      rcases Nat.lt_succ_iff_lt_or_eq.mp hk with hk | rfl
      · exact List.mem_cons_of_mem _ (ih.mpr ⟨k, hk, rfl⟩)
      · exact List.mem_cons_self _ _

theorem descSlots_nodup {buffer align : Nat} (hal : 0 < align) (n : Nat) :
    (descSlots buffer align n).Nodup := by
  induction n with
  | zero => simp [descSlots]
  | succ n ih =>
    refine List.Nodup.cons ?_ ih
    intro hmem
    obtain ⟨k, hk, he⟩ := mem_descSlots.mp hmem
    have : k = n := by
      have := Nat.add_left_cancel he.symm
      exact Nat.eq_of_mul_eq_mul_right hal this.symm |>.symm
    omega

theorem linkSlots_fst (buffer align : Nat) (n : Nat) (m : Mem) :
    (linkSlots buffer align n (0, m)).1 = (descSlots buffer align n).headD 0 := by
  cases n with
  | zero => simp [linkSlots, descSlots]
  | succ k => simp [linkSlots, descSlots]

theorem linkSlots_read {buffer align : Nat} (hal : PTR_SIZE ≤ align) :
    ∀ n (m : Mem), buffer + n * align ≤ 2 ^ 64 →
      ∀ i, i < n →
        wordRead (linkSlots buffer align n (0, m)).2 (buffer + i * align)
          = if i = 0 then 0 else buffer + (i - 1) * align := by
  intro n
  induction n with
  | zero => intro m _ i hi; omega
  | succ n ih =>
    intro m hbound i hi
    have hal8 : 8 ≤ align := hal
    have hsm : (n + 1) * align = n * align + align := Nat.succ_mul n align
    have hb' : buffer + n * align ≤ 2 ^ 64 := by omega
    rcases Nat.lt_succ_iff_lt_or_eq.mp hi with hlt | hieq
    · have h1 : i * align + align ≤ n * align := by
        have := Nat.mul_le_mul_right align (Nat.succ_le_of_lt hlt)
        simpa [Nat.succ_mul] using this
      have hdisj : buffer + i * align + PTR_SIZE ≤ buffer + n * align := by
        have hp : PTR_SIZE = 8 := rfl
        omega
      show wordRead
          (wordWrite (linkSlots buffer align n (0, m)).2 (buffer + n * align)
            (linkSlots buffer align n (0, m)).1) (buffer + i * align)
          = if i = 0 then 0 else buffer + (i - 1) * align
      rw [wordRead_write_disjoint _ _ (Or.inr hdisj)]
      exact ih m hb' i hlt
    · rw [hieq]
      show wordRead
          (wordWrite (linkSlots buffer align n (0, m)).2 (buffer + n * align)
            (linkSlots buffer align n (0, m)).1) (buffer + n * align)
          = if n = 0 then 0 else buffer + (n - 1) * align
      rw [wordRead_write_same, linkSlots_fst, descSlots_headD]
      have hmono : (n - 1) * align ≤ n * align :=
        Nat.mul_le_mul_right align (Nat.sub_le n 1)
      have hlt64 : (if n = 0 then 0 else buffer + (n - 1) * align) < 2 ^ 64 := by
        split
        · positivity
        · omega
      rw [Nat.mod_eq_of_lt hlt64]

theorem descSlots_chain {buffer align : Nat} (hbuf : buffer ≠ 0)
    {m' : Mem} :
    ∀ n, (∀ i, i < n → wordRead m' (buffer + i * align)
            = if i = 0 then 0 else buffer + (i - 1) * align) →
      isChain m' ((descSlots buffer align n).headD 0) (descSlots buffer align n) := by
  intro n
  induction n with
  | zero => intro _; simp [descSlots, isChain]
  | succ n ih =>
    intro hr
    have hr' : ∀ i, i < n → wordRead m' (buffer + i * align)
        = if i = 0 then 0 else buffer + (i - 1) * align :=
      fun i hi => hr i (Nat.lt_succ_of_lt hi)
    refine ⟨by simp [descSlots], by positivity, ?_⟩
    rw [hr n (Nat.lt_succ_self n), ← descSlots_headD buffer align n]
    exact ih hr'

/-- The slot stride `Pool::new` computes before any 64-bit
truncation: the requested size, raised to at least one machine word,
rounded up to a power of two. -/
def slotAlign (size : Nat) : Nat :=
  nextPow2 (if size < PTR_SIZE then PTR_SIZE else size)

theorem slotAlign_ge (size : Nat) : PTR_SIZE ≤ slotAlign size := by
  unfold slotAlign
  refine le_trans ?_ (nextPow2_ge _)
  split <;> omega

theorem new_none_iff (size count base : Nat) (m : Mem) :
    Pool.new size count base m = none ↔ size = 0 ∨ count = 0 ∨ base = 0 := by
  unfold Pool.new
  by_cases h1 : size = 0 ∨ count = 0
  · have hb : (size = 0 || count = 0) = true := by
      rcases h1 with h | h <;> simp [h]
    simp only [hb]
    simp
    tauto
  · push_neg at h1
    have hb : (size = 0 || count = 0) = false := by
      simp [h1.1, h1.2]
    simp only [hb]
    by_cases h2 : base = 0
    · simp [h2]
    · simp [h2, h1.1, h1.2]

theorem new_some {size count base : Nat} {m : Mem} {p : Pool} {m' : Mem}
    (h : Pool.new size count base m = some (p, m')) :
    size ≠ 0 ∧ count ≠ 0 ∧ base ≠ 0 ∧
    p = ⟨count, count, slotAlign size % 2 ^ 64 * count % 2 ^ 64,
         nextPow2 (slotAlign size % 2 ^ 64 * count % 2 ^ 64) % 2 ^ 64, base,
         (linkSlots base (slotAlign size % 2 ^ 64) count (0, m)).1⟩ ∧
    m' = (linkSlots base (slotAlign size % 2 ^ 64) count (0, m)).2 := by
  unfold Pool.new at h
  by_cases h1 : size = 0 ∨ count = 0
  · have hb : (size = 0 || count = 0) = true := by
      rcases h1 with h | h <;> simp [h]
    simp [hb] at h
  · push_neg at h1
    have hb : (size = 0 || count = 0) = false := by
      simp [h1.1, h1.2]
    simp only [hb, Bool.false_eq_true, if_false] at h
    by_cases h2 : base = 0
    · simp [h2] at h
    · simp only [h2, if_false] at h
      obtain ⟨hp, hm⟩ := Prod.mk.injEq .. ▸ Option.some.injEq .. ▸ h
      refine ⟨h1.1, h1.2, h2, ?_, hm.symm⟩
      rw [← hp]
      simp [slotAlign]

theorem new_facts {size count base : Nat} {m : Mem} {p : Pool} {m' : Mem}
    (h : Pool.new size count base m = some (p, m'))
    (hb : slotAlign size * count ≤ 2 ^ 63)
    (hbase : base + slotAlign size * count ≤ 2 ^ 64) :
    p.elements_count = count ∧ p.current_count = count ∧
    p.buffer = base ∧
    p.layoutSize = slotAlign size * count ∧
    p.layoutAlign = nextPow2 (slotAlign size * count) ∧
    p.stride = slotAlign size ∧
    0 < count ∧
    p.top = (descSlots base (slotAlign size) count).headD 0 ∧
    m' = (linkSlots base (slotAlign size) count (0, m)).2 ∧
    GoodPool p := by
  obtain ⟨hsz, hc, hb0, hp, hm⟩ := new_some h
  have hcpos : 0 < count := Nat.pos_of_ne_zero hc
  have hal8 : 8 ≤ slotAlign size := slotAlign_ge size
  have halle : slotAlign size ≤ 2 ^ 63 := by
    have : slotAlign size ≤ slotAlign size * count :=
      Nat.le_mul_of_pos_right _ hcpos
    omega
  have hal64 : slotAlign size % 2 ^ 64 = slotAlign size := by
    apply Nat.mod_eq_of_lt
    have : (2 : Nat) ^ 63 < 2 ^ 64 := by norm_num
    omega
  have hsz64 : slotAlign size * count % 2 ^ 64 = slotAlign size * count := by
    apply Nat.mod_eq_of_lt
    have : (2 : Nat) ^ 63 < 2 ^ 64 := by norm_num
    omega
  have hla : nextPow2 (slotAlign size * count) ≤ 2 ^ 63 :=
    nextPow2_le_of_le ⟨63, rfl⟩ hb
  have hla64 : nextPow2 (slotAlign size * count) % 2 ^ 64
      = nextPow2 (slotAlign size * count) := by
    apply Nat.mod_eq_of_lt
    have : (2 : Nat) ^ 63 < 2 ^ 64 := by norm_num
    omega
  subst hp hm
  rw [hal64, hsz64]
  have hstride : (⟨count, count, slotAlign size * count,
      nextPow2 (slotAlign size * count) % 2 ^ 64, base,
      (linkSlots base (slotAlign size) count (0, m)).1⟩ : Pool).stride
      = slotAlign size := by
    simp only [Pool.stride]
    exact Nat.mul_div_cancel _ hcpos
  refine ⟨rfl, rfl, rfl, rfl, by simpa using hla64, hstride, hcpos,
    by simpa using linkSlots_fst base (slotAlign size) count m, rfl, ?_⟩
  refine ⟨by rw [hstride]; exact hal8, by rw [hstride], hb0, ?_⟩
  simpa using hbase

theorem new_fullFree {size count base : Nat} {m : Mem} {p : Pool} {m' : Mem}
    (h : Pool.new size count base m = some (p, m'))
    (hb : slotAlign size * count ≤ 2 ^ 63)
    (hbase : base + slotAlign size * count ≤ 2 ^ 64) :
    FullFree p m' := by
  obtain ⟨he, hc, hbuf, hls, _, hst, hcpos, htop, hm, hg⟩ := new_facts h hb hbase
  have hb0' : base ≠ 0 := by
    have := hg.2.2.1
    rw [hbuf] at this
    exact this
  have hal8 : PTR_SIZE ≤ slotAlign size := slotAlign_ge size
  have hbound : base + count * slotAlign size ≤ 2 ^ 64 := by
    rw [Nat.mul_comm count (slotAlign size)]; exact hbase
  have hreads := linkSlots_read hal8 count m hbound
  have hchain := descSlots_chain hb0' count hreads
  rw [← hm] at hchain
  refine ⟨hg, by rw [hc, he], descSlots base (slotAlign size) count, ?_, ?_, ?_, ?_⟩
  · rw [htop]; exact hchain
  · rw [descSlots_length, he]
  · refine descSlots_nodup ?_ count
    have h8 : (8 : Nat) ≤ slotAlign size := hal8
    omega
  · intro a ha
    obtain ⟨k, hk, rfl⟩ := mem_descSlots.mp ha
    exact ⟨k, by rw [he]; exact hk, by rw [hbuf, hst]⟩

theorem slotStart_ne_zero {p : Pool} (hg : GoodPool p) {a : Nat}
    (hs : SlotStart p a) : a ≠ 0 := by
  obtain ⟨k, _, rfl⟩ := hs
  have := hg.2.2.1
  intro h
  omega

theorem slotStart_lt64 {p : Pool} (hg : GoodPool p) {a : Nat}
    (hs : SlotStart p a) : a < 2 ^ 64 := by
  obtain ⟨hps, hsn, _, hb64⟩ := hg
  have hps8 : (8 : Nat) ≤ p.stride := hps
  obtain ⟨k, hk, rfl⟩ := hs
  have h1 : k * p.stride < p.elements_count * p.stride :=
    (Nat.mul_lt_mul_right (by omega)).mpr hk
  have h2 : p.elements_count * p.stride = p.stride * p.elements_count :=
    Nat.mul_comm _ _
  omega

theorem slot_disjoint {p : Pool} (hg : GoodPool p) {a b : Nat}
    (ha : SlotStart p a) (hb : SlotStart p b) (hne : a ≠ b) :
    a + PTR_SIZE ≤ b ∨ b + PTR_SIZE ≤ a := by
  obtain ⟨hps, _, _, _⟩ := hg
  obtain ⟨j, hj, rfl⟩ := ha
  obtain ⟨k, hk, rfl⟩ := hb
  have hjk : j ≠ k := by rintro rfl; exact hne rfl
  rcases Nat.lt_or_ge j k with hlt | hge
  · left
    have : (j + 1) * p.stride ≤ k * p.stride :=
      Nat.mul_le_mul_right _ (Nat.succ_le_of_lt hlt)
    have hsm : (j + 1) * p.stride = j * p.stride + p.stride := Nat.succ_mul j _
    omega
  · right
    have hlt : k < j := by omega
    have : (k + 1) * p.stride ≤ j * p.stride :=
      Nat.mul_le_mul_right _ (Nat.succ_le_of_lt hlt)
    have hsm : (k + 1) * p.stride = k * p.stride + p.stride := Nat.succ_mul k _
    omega

theorem slotList_length_le {p : Pool} (hg : GoodPool p) {l : List Nat}
    (hmem : ∀ a ∈ l, SlotStart p a) (hnd : l.Nodup) :
    l.length ≤ p.elements_count := by
  have hpos : 0 < p.stride := by have := hg.1; have h8 : (8 : Nat) ≤ p.stride := this; omega
  set f : Nat → Nat := fun a => (a - p.buffer) / p.stride with hf
  have hfval : ∀ a ∈ l, a = p.buffer + f a * p.stride ∧ f a < p.elements_count := by
    intro a ha
    obtain ⟨k, hk, rfl⟩ := hmem a ha
    have : f (p.buffer + k * p.stride) = k := by
      simp [hf, Nat.add_sub_cancel_left, Nat.mul_div_cancel _ hpos]
    rw [this]
    exact ⟨rfl, hk⟩
  have hmapnd : (l.map f).Nodup := by
    refine List.Nodup.map_on ?_ hnd
    intro x hx y hy hxy
    have hxv := (hfval x hx).1
    have hyv := (hfval y hy).1
    rw [hxv, hyv, hxy]
  have hsub : (l.map f).toFinset ⊆ Finset.range p.elements_count := by
    intro b hb
    rw [List.mem_toFinset] at hb
    obtain ⟨a, ha, rfl⟩ := List.mem_map.mp hb
    exact Finset.mem_range.mpr (hfval a ha).2
  have hcard := Finset.card_le_card hsub
  rw [List.toFinset_card_of_nodup hmapnd, Finset.card_range, List.length_map] at hcard
  exact hcard

theorem is_manage_iff {p : Pool} (hg : GoodPool p) (a : Nat) :
    p.is_manage a = true ↔ SlotStart p a := by
  have hpos : 0 < p.stride := by have := hg.1; have h8 : (8 : Nat) ≤ p.stride := this; omega
  simp only [Pool.is_manage, Bool.and_eq_true, decide_eq_true_eq]
  constructor
  · rintro ⟨⟨hle, hlt⟩, hmod⟩
    have hdvd : p.stride ∣ (a - p.buffer) := Nat.dvd_of_mod_eq_zero hmod
    obtain ⟨k, hk⟩ := hdvd
    have hklt : p.stride * k < p.stride * p.elements_count := by omega
    have hk' : a - p.buffer = k * p.stride := by
      rw [Nat.mul_comm] at hk; exact hk
    exact ⟨k, Nat.lt_of_mul_lt_mul_left hklt, by omega⟩
  · rintro ⟨k, hk, rfl⟩
    refine ⟨⟨Nat.le_add_right _ _, ?_⟩, ?_⟩
    · have h1 : k * p.stride < p.elements_count * p.stride :=
        (Nat.mul_lt_mul_right hpos).mpr hk
      have h2 : p.elements_count * p.stride = p.stride * p.elements_count :=
        Nat.mul_comm _ _
      omega
    · simp [Nat.add_sub_cancel_left, Nat.mul_mod_left]

theorem allocN_zero_top {q : Pool} {mm : Mem} (h : q.top = 0) :
    q.alloc mm = (q, 0) := by
  simp [Pool.alloc, h]

theorem allocN_spec {m : Mem} {l : List Nat} :
    ∀ (p : Pool), isChain m p.top l →
      ∀ k, k ≤ l.length →
        allocN p m k
          = (⟨p.elements_count, p.current_count - k, p.layoutSize,
              p.layoutAlign, p.buffer, (l.drop k).headD 0⟩, l.take k) := by
  intro p hch k
  induction k with
  | zero =>
    intro _
    have hhead := isChain_head hch
    obtain ⟨e, c, ls, la, bu, t⟩ := p
    simp only [allocN, List.take_zero, List.drop_zero, Nat.sub_zero]
    simp at hhead
    simp [hhead]
  | succ k ihk =>
    intro hk
    have hk' : k ≤ l.length := by omega
    have hklt : k < l.length := by omega
    have hIH := ihk hk'
    have hdropk : l.drop k = l[k] :: l.drop (k + 1) := List.drop_eq_getElem_cons hklt
    have hchk := isChain_drop l p.top hch k
    rw [hdropk] at hchk
    simp only [List.headD_cons] at hchk
    obtain ⟨-, hne, hrest⟩ := hchk
    have hwr : wordRead m l[k] = (l.drop (k + 1)).headD 0 := isChain_head hrest
    have hstep : allocN p m (k + 1)
        = ((allocN p m k).1.alloc m |>.1,
           (allocN p m k).2 ++ [((allocN p m k).1.alloc m).2]) := rfl
    rw [hstep, hIH]
    have htopk : (⟨p.elements_count, p.current_count - k, p.layoutSize,
        p.layoutAlign, p.buffer, (l.drop k).headD 0⟩ : Pool).top = l[k] := by
      rw [hdropk]; rfl
    have halloc : (⟨p.elements_count, p.current_count - k, p.layoutSize,
        p.layoutAlign, p.buffer, (l.drop k).headD 0⟩ : Pool).alloc m
        = (⟨p.elements_count, p.current_count - k - 1, p.layoutSize,
            p.layoutAlign, p.buffer, wordRead m l[k]⟩, l[k]) := by
      rw [hdropk]
      simp only [Pool.alloc, List.headD_cons]
      simp [hne]
    rw [halloc]
    simp only [hwr]
    rw [take_append_getElem l k hklt]
    have : p.current_count - k - 1 = p.current_count - (k + 1) := by omega
    rw [this]

theorem dealloc_success {p : Pool} {m : Mem} {a : Nat}
    (h : p.is_manage a = true) :
    p.dealloc m a = ({ p with current_count := p.current_count + 1, top := a },
                     wordWrite m a p.top, true) := by
  simp [Pool.dealloc, h]

theorem dealloc_fail {p : Pool} {m : Mem} {a : Nat}
    (h : p.is_manage a = false) :
    p.dealloc m a = (p, m, false) := by
  simp [Pool.dealloc, h]

theorem chainTop_lt64 {p : Pool} {m : Mem} {l : List Nat} (hg : GoodPool p)
    (hch : isChain m p.top l) (hmem : ∀ b ∈ l, SlotStart p b) :
    p.top < 2 ^ 64 := by
  cases l with
  | nil =>
    have : p.top = 0 := hch
    rw [this]
    positivity
  | cons b l =>
    have : p.top = b := hch.1
    rw [this]
    exact slotStart_lt64 hg (hmem b (List.mem_cons_self b l))

theorem dealloc_chain_step {p : Pool} {m : Mem} {a : Nat} {l : List Nat}
    (hg : GoodPool p) (hch : isChain m p.top l)
    (hmem : ∀ b ∈ l, SlotStart p b) (hsa : SlotStart p a) (hnotin : a ∉ l) :
    isChain (wordWrite m a p.top) a (a :: l) := by
  refine ⟨rfl, slotStart_ne_zero hg hsa, ?_⟩
  have hlt : p.top < 2 ^ 64 := chainTop_lt64 hg hch hmem
  have hwr : wordRead (wordWrite m a p.top) a = p.top := by
    rw [wordRead_write_same, Nat.mod_eq_of_lt hlt]
  rw [hwr]
  refine isChain_congr l p.top ?_ hch
  intro b hb
  have hne : a ≠ b := by rintro rfl; exact hnotin hb
  exact wordRead_write_disjoint m p.top (slot_disjoint hg hsa (hmem b hb) hne)

theorem deallocList_spec :
    ∀ (l : List Nat) (p : Pool) (m : Mem) (l₀ : List Nat),
      GoodPool p → isChain m p.top l₀ →
      (∀ a ∈ l, SlotStart p a) → (∀ a ∈ l₀, SlotStart p a) →
      l.Nodup → (∀ a ∈ l, a ∉ l₀) →
      ∃ p' m',
        deallocList p m l = (p', m', true) ∧
        p'.elements_count = p.elements_count ∧
        p'.layoutSize = p.layoutSize ∧
        p'.layoutAlign = p.layoutAlign ∧
        p'.buffer = p.buffer ∧
        p'.current_count = p.current_count + l.length ∧
        isChain m' p'.top (l.reverse ++ l₀) := by
  intro l
  induction l with
  | nil =>
    intro p m l₀ hg hch _ _ _ _
    exact ⟨p, m, rfl, rfl, rfl, rfl, rfl, rfl, by simpa using hch⟩
  | cons a l ih =>
    intro p m l₀ hg hch hl hl₀ hnd hdisj
    have hsa : SlotStart p a := hl a (List.mem_cons_self a l)
    have hma : p.is_manage a = true := (is_manage_iff hg a).mpr hsa
    have hstep := dealloc_success (m := m) hma
    have hnotin : a ∉ l₀ := hdisj a (List.mem_cons_self a l)
    have hch₁ : isChain (wordWrite m a p.top) a (a :: l₀) :=
      dealloc_chain_step hg hch hl₀ hsa hnotin
    have hg₁ : GoodPool { p with current_count := p.current_count + 1, top := a } := by
      obtain ⟨h1, h2, h3, h4⟩ := hg
      exact ⟨h1, h2, h3, h4⟩
    have hss : ∀ x, SlotStart { p with current_count := p.current_count + 1, top := a } x
        ↔ SlotStart p x := by
      intro x
      simp [SlotStart, Pool.stride]
    obtain ⟨p', m', heq, he, hls, hla, hbu, hcc, hchain⟩ :=
      ih { p with current_count := p.current_count + 1, top := a }
        (wordWrite m a p.top) (a :: l₀) hg₁ hch₁
        (fun x hx => (hss x).mpr (hl x (List.mem_cons_of_mem a hx)))
        (by
          intro x hx
          rcases List.mem_cons.mp hx with rfl | hx
          · exact (hss x).mpr hsa
          · exact (hss x).mpr (hl₀ x hx))
        (List.Nodup.of_cons hnd)
        (by
          intro x hx hmem
          rcases List.mem_cons.mp hmem with rfl | hmem
          · exact (List.nodup_cons.mp hnd).1 hx
          · exact hdisj x (List.mem_cons_of_mem a hx) hmem)
    refine ⟨p', m', ?_, he, hls, hla, hbu, ?_, ?_⟩
    · show (let r := p.dealloc m a
            let s := deallocList r.1 r.2.1 l
            (s.1, s.2.1, r.2.2 && s.2.2)) = (p', m', true)
      rw [hstep]
      simp only []
      rw [heq]
      simp
    · rw [hcc]
      simp only [List.length_cons]
      omega
    · have : (a :: l).reverse ++ l₀ = l.reverse ++ (a :: l₀) := by
        simp
      rw [this]
      exact hchain

theorem writeBytesAt_notMem :
    ∀ (l : List Nat) (m : Mem) (i x : Nat), x ∉ l →
      byteRead (writeBytesAt m l i) x = byteRead m x := by
  intro l
  induction l with
  | nil => intro m i x _; rfl
  | cons a l ih =>
    intro m i x hx
    have hxa : x ≠ a := by
      rintro rfl; exact hx (List.mem_cons_self x l)
    have hxl : x ∉ l := fun hc => hx (List.mem_cons_of_mem a hc)
    show byteRead (writeBytesAt (byteWrite m a i) l (i + 1)) x = byteRead m x
    rw [ih _ _ _ hxl, byteRead_write_other m i hxa]

theorem readCheckAt_write :
    ∀ (l : List Nat) (m : Mem) (i : Nat), l.Nodup →
      readCheckAt (writeBytesAt m l i) l i = true := by
  intro l
  induction l with
  | nil => intro m i _; rfl
  | cons a l ih =>
    intro m i hnd
    obtain ⟨hal, hnd'⟩ := List.nodup_cons.mp hnd
    show ((byteRead (writeBytesAt (byteWrite m a i) l (i + 1)) a == i % 256)
        && readCheckAt (writeBytesAt (byteWrite m a i) l (i + 1)) l (i + 1)) = true
    rw [writeBytesAt_notMem l _ _ _ hal, byteRead_write_same, ih _ _ hnd']
    simp

theorem cycle_ok {p : Pool} {m : Mem} (h : FullFree p m) :
    (p.cycle m).2.2 = true ∧ FullFree (p.cycle m).1 (p.cycle m).2.1 := by
  obtain ⟨hg, hcc, l, hch, hlen, hnd, hmem⟩ := h
  have hkeq : p.elements_count ≤ l.length := by omega
  have hr := allocN_spec p hch p.elements_count hkeq
  have hdropl : l.drop p.elements_count = [] := by
    rw [← hlen]; exact List.drop_length l
  have htakel : l.take p.elements_count = l := by
    rw [← hlen]; exact List.take_length l
  rw [hdropl, htakel] at hr
  simp only [List.headD_nil] at hr
  set p₁ : Pool := ⟨p.elements_count, p.current_count - p.elements_count,
    p.layoutSize, p.layoutAlign, p.buffer, 0⟩ with hp₁
  have hok1 : (l.all fun x => x != 0) = true := by
    rw [List.all_eq_true]
    intro x hx
    simpa using isChain_ne_zero hch x hx
  have hok2 : readCheckAt (writeBytesAt m l 0) l 0 = true := readCheckAt_write l m 0 hnd
  have hg₁ : GoodPool p₁ := by
    obtain ⟨h1, h2, h3, h4⟩ := hg
    exact ⟨h1, h2, h3, h4⟩
  have hss : ∀ x, SlotStart p₁ x ↔ SlotStart p x := by
    intro x
    simp [SlotStart, Pool.stride, hp₁]
  obtain ⟨p', m', heq, he, hls, hla, hbu, hcc', hchain⟩ :=
    deallocList_spec l p₁ (writeBytesAt m l 0) [] hg₁ rfl
      (fun x hx => (hss x).mpr (hmem x hx))
      (by intro x hx; simp at hx)
      hnd
      (by intro x _ hc; simp at hc)
  have hcyc : p.cycle m = (p', m', (l.all fun x => x != 0)
      && readCheckAt (writeBytesAt m l 0) l 0 && true) := by
    show (let r := allocN p m p.elements_count
          let ok1 := r.2.all (fun x => x != 0)
          let m1 := writeBytesAt m r.2 0
          let ok2 := readCheckAt m1 r.2 0
          let d := deallocList r.1 m1 r.2
          (d.1, d.2.1, ok1 && ok2 && d.2.2)) = _
    rw [hr]
    simp only []
    rw [heq]
  rw [hcyc]
  have he' : p'.elements_count = p.elements_count := by rw [he]
  have hls' : p'.layoutSize = p.layoutSize := by rw [hls]
  have hbu' : p'.buffer = p.buffer := by rw [hbu]
  have hstr' : p'.stride = p.stride := by
    unfold Pool.stride
    rw [he', hls']
  refine ⟨by rw [hok1, hok2]; simp, ?_⟩
  have hcnt : p'.current_count = p'.elements_count := by
    rw [hcc', he']
    show p.current_count - p.elements_count + l.length = p.elements_count
    omega
  refine ⟨?_, hcnt, l.reverse, by simpa using hchain, ?_,
    List.nodup_reverse.mpr hnd, ?_⟩
  · exact ⟨by rw [hstr']; exact hg.1,
      by rw [hstr', he', hls']; exact hg.2.1,
      by rw [hbu']; exact hg.2.2.1,
      by rw [hbu', hls']; exact hg.2.2.2⟩
  · rw [List.length_reverse, hlen, he']
  · intro x hx
    rw [List.mem_reverse] at hx
    obtain ⟨k, hk, hxe⟩ := hmem x hx
    exact ⟨k, by rw [he']; exact hk, by rw [hbu', hstr']; exact hxe⟩

/-- Repetition of the reuse lap: run `cycle` `k` times, conjoining the
success flags. -/
def cycleN (p : Pool) (m : Mem) : Nat → Pool × Mem × Bool
  | 0 => (p, m, true)
  | k + 1 =>
    let c := p.cycle m
    let r := cycleN c.1 c.2.1 k
    (r.1, r.2.1, c.2.2 && r.2.2)

theorem cycleN_ok :
    ∀ (k : Nat) (p : Pool) (m : Mem), FullFree p m →
      (cycleN p m k).2.2 = true ∧
      FullFree (cycleN p m k).1 (cycleN p m k).2.1 := by
  intro k
  induction k with
  | zero => intro p m h; exact ⟨rfl, h⟩
  | succ k ih =>
    intro p m h
    have hc := cycle_ok h
    have hr := ih (p.cycle m).1 (p.cycle m).2.1 hc.2
    refine ⟨?_, ?_⟩
    · show ((p.cycle m).2.2
          && (cycleN (p.cycle m).1 (p.cycle m).2.1 k).2.2) = true
      rw [hc.1, hr.1]
      rfl
    · exact hr.2

theorem isChain_unique {m : Mem} :
    ∀ (l₁ l₂ : List Nat) (t : Nat), isChain m t l₁ → isChain m t l₂ →
      l₁ = l₂ := by
  intro l₁
  induction l₁ with
  | nil =>
    intro l₂ t h₁ h₂
    have ht : t = 0 := h₁
    cases l₂ with
    | nil => rfl
    | cons b l₂ =>
      obtain ⟨htb, hb, _⟩ := h₂
      exact absurd (htb ▸ ht) hb
  | cons a l₁ ih =>
    intro l₂ t h₁ h₂
    obtain ⟨hta, ha, hrest₁⟩ := h₁
    cases l₂ with
    | nil =>
      have ht : t = 0 := h₂
      exact absurd (hta ▸ ht) ha
    | cons b l₂ =>
      obtain ⟨htb, _, hrest₂⟩ := h₂
      have hab : a = b := by rw [← hta, ← htb]
      subst hab
      rw [← hta] at hrest₁
      rw [← htb] at hrest₂
      rw [ih l₂ (wordRead m t) hrest₁ hrest₂]

theorem poolInv_of_fullFree {p : Pool} {m : Mem} (h : FullFree p m) :
    PoolInv p m := by
  obtain ⟨hg, hcc, l, h1, h2, h3, h4⟩ := h
  exact ⟨hg, Nat.le_of_eq hcc, l, h1, h2.trans hcc.symm, h3, h4⟩

theorem poolInv_alloc {p : Pool} {m : Mem} (h : PoolInv p m) :
    PoolInv (p.alloc m).1 m := by
  obtain ⟨hg, hcc, l, hch, hlen, hnd, hmem⟩ := h
  by_cases ht : p.top = 0
  · rw [allocN_zero_top ht]
    exact ⟨hg, hcc, l, hch, hlen, hnd, hmem⟩
  · cases l with
    | nil => exact absurd hch ht
    | cons a l' =>
      obtain ⟨hta, ha0, hrest⟩ := hch
      have halloc : p.alloc m
          = ({ p with current_count := p.current_count - 1, top := wordRead m p.top }, p.top) := by
        simp [Pool.alloc, ht]
      rw [halloc]
      have hlen' : l'.length + 1 = p.current_count := by
        simpa using hlen
      refine ⟨⟨hg.1, hg.2.1, hg.2.2.1, hg.2.2.2⟩, ?_, l', ?_, ?_, ?_, ?_⟩
      · show p.current_count - 1 ≤ p.elements_count
        omega
      · show isChain m (wordRead m p.top) l'
        rw [hta]
        exact hrest
      · show l'.length = p.current_count - 1
        omega
      · exact List.Nodup.of_cons hnd
      · intro x hx
        exact hmem x (List.mem_cons_of_mem a hx)

theorem poolInv_dealloc {p : Pool} {m : Mem} {a : Nat} (h : PoolInv p m)
    (hfree : ∀ l, isChain m p.top l → a ∉ l) :
    PoolInv (p.dealloc m a).1 (p.dealloc m a).2.1 := by
  obtain ⟨hg, hcc, l, hch, hlen, hnd, hmem⟩ := h
  by_cases hma : p.is_manage a = true
  · have hsa := (is_manage_iff hg a).mp hma
    have hnotin := hfree l hch
    rw [dealloc_success hma]
    have hchain := dealloc_chain_step hg hch hmem hsa hnotin
    have hnd' : (a :: l).Nodup := List.nodup_cons.mpr ⟨hnotin, hnd⟩
    have hmem' : ∀ x ∈ a :: l, SlotStart p x := by
      intro x hx
      rcases List.mem_cons.mp hx with rfl | hx
      · exact hsa
      · exact hmem x hx
    have hle := slotList_length_le hg hmem' hnd'
    simp only [List.length_cons] at hle
    refine ⟨⟨hg.1, hg.2.1, hg.2.2.1, hg.2.2.2⟩, ?_, a :: l, hchain, ?_, hnd', hmem'⟩
    · show p.current_count + 1 ≤ p.elements_count
      omega
    · show (a :: l).length = p.current_count + 1
      simp [hlen]
  · have hma' : p.is_manage a = false := by
      simpa using hma
    rw [dealloc_fail hma']
    exact ⟨hg, hcc, l, hch, hlen, hnd, hmem⟩

theorem descSlots_index (buffer align : Nat) :
    ∀ n i, i < n →
      (descSlots buffer align n)[i]? = some (buffer + (n - 1 - i) * align) := by
  intro n
  induction n with
  | zero => intro i hi; omega
  | succ n ih =>
    intro i hi
    cases i with
    | zero => simp [descSlots]
    | succ i =>
      have hlt : i < n := by omega
      simp only [descSlots, List.getElem?_cons_succ]
      rw [ih i hlt, show n + 1 - 1 - (i + 1) = n - 1 - i from by omega]

/-- C1: `release(addr)` validates ownership before mutating anything:
on an out-of-range or misaligned address it returns failure and changes
nothing (pool state and memory are returned untouched); on a slot start
within range it writes the current free-list head into `addr`'s first
machine word, makes `addr` the new head, increments the free counter by
one and returns success.  (`Pool::dealloc` is modelled from the spec;
its body is absent from the source tree.) -/
theorem C1_release_validates (p : Pool) (m : Mem) (a : Nat) :
    (¬ (p.buffer ≤ a ∧ a < p.buffer + p.stride * p.elements_count ∧
        (a - p.buffer) % p.stride = 0) →
      p.dealloc m a = (p, m, false)) ∧
    ((p.buffer ≤ a ∧ a < p.buffer + p.stride * p.elements_count ∧
        (a - p.buffer) % p.stride = 0) →
      p.dealloc m a
        = ({ p with current_count := p.current_count + 1, top := a },
           wordWrite m a p.top, true)) := by
  have hiff : p.is_manage a = true ↔
      (p.buffer ≤ a ∧ a < p.buffer + p.stride * p.elements_count ∧
       (a - p.buffer) % p.stride = 0) := by
    simp [Pool.is_manage, and_assoc]
  constructor
  · intro hnot
    exact dealloc_fail (Bool.eq_false_iff.mpr fun hc => hnot (hiff.mp hc))
  · intro hyes
    exact dealloc_success (hiff.mpr hyes)

theorem C1_witness :
    (⟨4, 4, 32, 32, 8, 0⟩ : Pool).dealloc (fun _ => 0) 9
      = (⟨4, 4, 32, 32, 8, 0⟩, (fun _ => 0), false) ∧
    (⟨4, 4, 32, 32, 8, 0⟩ : Pool).dealloc (fun _ => 0) 16
      = (⟨4, 5, 32, 32, 8, 16⟩, wordWrite (fun _ => 0) 16 0, true) := by
  constructor
  · exact (C1_release_validates ⟨4, 4, 32, 32, 8, 0⟩ (fun _ => 0) 9).1 (by decide)
  · exact (C1_release_validates ⟨4, 4, 32, 32, 8, 0⟩ (fun _ => 0) 16).2 (by decide)

/-- C2: `is_owned(addr)` is true iff `addr` lies in
`[region_base, region_base + slot_stride * capacity)` and
`addr - region_base` is an exact multiple of `slot_stride`; it is a
pure query (a function of the pool and the address, mutating nothing),
so interior bytes of a slot and out-of-range addresses are rejected.
(`Pool::is_manage` is modelled from the spec; its body is absent from
the source tree.) -/
theorem C2_is_owned_iff (p : Pool) (a : Nat) :
    p.is_manage a = true ↔
      (p.buffer ≤ a ∧ a < p.buffer + p.stride * p.elements_count ∧
       (a - p.buffer) % p.stride = 0) := by
  simp [Pool.is_manage, and_assoc]

theorem C2_witness :
    (⟨4, 4, 32, 32, 8, 0⟩ : Pool).is_manage 8 = true ∧
    (⟨4, 4, 32, 32, 8, 0⟩ : Pool).is_manage 9 = false ∧
    (⟨4, 4, 32, 32, 8, 0⟩ : Pool).is_manage 40 = false := by
  refine ⟨(C2_is_owned_iff ⟨4, 4, 32, 32, 8, 0⟩ 8).mpr (by decide), ?_, ?_⟩
  · exact Bool.eq_false_iff.mpr fun hc =>
      absurd ((C2_is_owned_iff ⟨4, 4, 32, 32, 8, 0⟩ 9).mp hc) (by decide)
  · exact Bool.eq_false_iff.mpr fun hc =>
      absurd ((C2_is_owned_iff ⟨4, 4, 32, 32, 8, 0⟩ 40).mp hc) (by decide)

/-- C3: with a non-empty free list, `alloc` pops the head: the
next-link stored in the head slot's first machine word becomes the new
`top`, the free counter drops by exactly one, and the popped slot's
address is returned.  This is the behaviour of the source with the
counter slip repaired: the source line `self.count -= 1` names a field
`count` that `Pool` does not have (the counter field is
`current_count`), so `Pool::alloc` as written does not compile. -/
theorem C3_acquire_pops_head (p : Pool) (m : Mem) (h : p.top ≠ 0)
    (hc : 0 < p.current_count) :
    p.alloc m = ({ p with current_count := p.current_count - 1, top := wordRead m p.top }, p.top) ∧
    (p.alloc m).1.current_count + 1 = p.current_count := by
  refine ⟨by simp [Pool.alloc, h], ?_⟩
  simp only [Pool.alloc, if_pos h]
  omega

theorem C3_witness :
    (⟨4, 4, 32, 32, 8, 16⟩ : Pool).alloc (fun _ => 0)
      = (⟨4, 3, 32, 32, 8, 0⟩, 16) ∧
    ((⟨4, 4, 32, 32, 8, 16⟩ : Pool).alloc (fun _ => 0)).1.current_count + 1 = 4 := by
  have h := C3_acquire_pops_head ⟨4, 4, 32, 32, 8, 16⟩ (fun _ => 0)
    (by decide) (by decide)
  exact ⟨h.1.trans (by decide), h.2⟩

/-- C4: on a freshly constructed pool of capacity `count` (inputs in
the non-overflowing range), the first `count` acquires return non-null,
pairwise-distinct addresses; the next acquire returns the null
sentinel; and in general an acquire on a pool whose `top` is the null
sentinel returns null and leaves the pool unchanged. -/
theorem C4_exhaustion (size count base : Nat) (m : Mem) (p : Pool) (m' : Mem)
    (hsome : Pool.new size count base m = some (p, m'))
    (hb : slotAlign size * count ≤ 2 ^ 63)
    (hbase : base + slotAlign size * count ≤ 2 ^ 64) :
    (allocN p m' count).2.length = count ∧
    (∀ x ∈ (allocN p m' count).2, x ≠ 0) ∧
    (allocN p m' count).2.Nodup ∧
    ((allocN p m' count).1.alloc m').2 = 0 ∧
    (∀ (q : Pool) (mm : Mem), q.top = 0 → q.alloc mm = (q, 0)) := by
  obtain ⟨hg, hcc, l, hch, hlen, hnd, hmem⟩ := new_fullFree hsome hb hbase
  have he : p.elements_count = count := (new_facts hsome hb hbase).1
  have hcnt : count ≤ l.length := by omega
  have hr := allocN_spec p hch count hcnt
  have hdropl : l.drop count = [] := by
    have : l.length ≤ count := by omega
    exact List.drop_eq_nil_of_le this
  have htakel : l.take count = l := by
    have : l.length ≤ count := by omega
    exact List.take_of_length_le this
  rw [hdropl, htakel] at hr
  rw [hr]
  refine ⟨by show l.length = count; omega,
    fun x hx => isChain_ne_zero hch x hx, hnd, ?_,
    fun q mm hq => allocN_zero_top hq⟩
  rw [allocN_zero_top rfl]

theorem C4_witness :
    (allocN ⟨4, 4, 32, 32, 8, 32⟩ (linkSlots 8 8 4 (0, fun _ => 0)).2 4).2.length = 4 ∧
    ((allocN ⟨4, 4, 32, 32, 8, 32⟩ (linkSlots 8 8 4 (0, fun _ => 0)).2 4).1.alloc
       (linkSlots 8 8 4 (0, fun _ => 0)).2).2 = 0 := by
  have h := C4_exhaustion 8 4 8 (fun _ => 0) ⟨4, 4, 32, 32, 8, 32⟩
    (linkSlots 8 8 4 (0, fun _ => 0)).2 rfl (by decide) (by decide)
  exact ⟨h.1, h.2.2.2.1⟩

/-- C5: construction fails (returns no instance) exactly when the slot
size is zero, the slot count is zero, or the memory reservation fails
(the opaque allocator returns null); every successfully constructed
pool has `capacity = slot_count` and `available = capacity`. -/
theorem C5_construction (size count base : Nat) (m : Mem) :
    (Pool.new size count base m = none ↔ size = 0 ∨ count = 0 ∨ base = 0) ∧
    (∀ (p : Pool) (m' : Mem), Pool.new size count base m = some (p, m') →
      p.elements_count = count ∧ p.current_count = p.elements_count) := by
  refine ⟨new_none_iff size count base m, ?_⟩
  intro p m' h
  obtain ⟨-, -, -, hp, -⟩ := new_some h
  subst hp
  exact ⟨rfl, rfl⟩

theorem C5_witness :
    Pool.new 0 4 8 (fun _ => 0) = none ∧
    Pool.new 8 0 8 (fun _ => 0) = none ∧
    Pool.new 8 4 0 (fun _ => 0) = none ∧
    (⟨4, 4, 32, 32, 8, 32⟩ : Pool).elements_count = 4 ∧
    (⟨4, 4, 32, 32, 8, 32⟩ : Pool).current_count
      = (⟨4, 4, 32, 32, 8, 32⟩ : Pool).elements_count := by
  have h := (C5_construction 8 4 8 (fun _ => 0)).2 ⟨4, 4, 32, 32, 8, 32⟩
    (linkSlots 8 8 4 (0, fun _ => 0)).2 rfl
  exact ⟨(C5_construction 0 4 8 (fun _ => 0)).1.mpr (Or.inl rfl),
    (C5_construction 8 0 8 (fun _ => 0)).1.mpr (Or.inr (Or.inl rfl)),
    (C5_construction 8 4 0 (fun _ => 0)).1.mpr (Or.inr (Or.inr rfl)),
    h.1, h.2⟩

/-- C6: for every successful construction (inputs in the
non-overflowing range), the slot stride is the least power of two that
is at least `max(slot_size, pointer width)`, the region size handed to
the reservation is exactly `slot_stride * slot_count`, and the
requested region alignment is the least power of two at least the
region size. -/
theorem C6_layout (size count base : Nat) (m : Mem) (p : Pool) (m' : Mem)
    (hsome : Pool.new size count base m = some (p, m'))
    (hb : slotAlign size * count ≤ 2 ^ 63)
    (hbase : base + slotAlign size * count ≤ 2 ^ 64) :
    IsLeastPow2 p.stride (max size PTR_SIZE) ∧
    p.layoutSize = p.stride * count ∧
    IsLeastPow2 p.layoutAlign p.layoutSize := by
  obtain ⟨he, hc, hbuf, hls, hla, hst, hcpos, -, -, hg⟩ := new_facts hsome hb hbase
  have hmax : (if size < PTR_SIZE then PTR_SIZE else size) = max size PTR_SIZE := by
    rcases Nat.lt_or_ge size PTR_SIZE with hlt | hge
    · simp [hlt, Nat.max_eq_right (Nat.le_of_lt hlt)]
    · have hn : ¬ size < PTR_SIZE := by omega
      simp [hn, Nat.max_eq_left hge]
  refine ⟨?_, by rw [hls, hst], ?_⟩
  · rw [hst, ← hmax]
    exact nextPow2_spec _
  · rw [hla, hls]
    exact nextPow2_spec _

theorem C6_witness :
    IsLeastPow2 (⟨4, 4, 32, 32, 8, 32⟩ : Pool).stride (max 8 PTR_SIZE) ∧
    (⟨4, 4, 32, 32, 8, 32⟩ : Pool).layoutSize
      = (⟨4, 4, 32, 32, 8, 32⟩ : Pool).stride * 4 ∧
    IsLeastPow2 (⟨4, 4, 32, 32, 8, 32⟩ : Pool).layoutAlign
      (⟨4, 4, 32, 32, 8, 32⟩ : Pool).layoutSize :=
  C6_layout 8 4 8 (fun _ => 0) ⟨4, 4, 32, 32, 8, 32⟩
    (linkSlots 8 8 4 (0, fun _ => 0)).2 rfl (by decide) (by decide)

/-- C7: the free-list invariant — `available ≤ capacity` and the walk
from `free_head` to the null sentinel visits exactly `available`
pairwise-distinct slot-start addresses — is established by construction
(inputs in the non-overflowing range) and preserved by every `alloc`
and by every `dealloc` whose argument is not already on the free list
(the release contract: an address previously acquired and not yet
released; double release is outside the contract). -/
theorem C7_free_list_invariant :
    (∀ (size count base : Nat) (m : Mem) (p : Pool) (m' : Mem),
      Pool.new size count base m = some (p, m') →
      slotAlign size * count ≤ 2 ^ 63 →
      base + slotAlign size * count ≤ 2 ^ 64 →
      PoolInv p m') ∧
    (∀ (p : Pool) (m : Mem), PoolInv p m → PoolInv (p.alloc m).1 m) ∧
    (∀ (p : Pool) (m : Mem) (a : Nat), PoolInv p m →
      (∀ l, isChain m p.top l → a ∉ l) →
      PoolInv (p.dealloc m a).1 (p.dealloc m a).2.1) :=
  ⟨fun _ _ _ _ _ _ hsome hb hbase =>
      poolInv_of_fullFree (new_fullFree hsome hb hbase),
   fun _ _ h => poolInv_alloc h,
   fun _ _ _ h hfree => poolInv_dealloc h hfree⟩

theorem C7_witness :
    PoolInv ⟨4, 4, 32, 32, 8, 32⟩ (linkSlots 8 8 4 (0, fun _ => 0)).2 ∧
    PoolInv ((⟨4, 4, 32, 32, 8, 32⟩ : Pool).alloc
        (linkSlots 8 8 4 (0, fun _ => 0)).2).1
      (linkSlots 8 8 4 (0, fun _ => 0)).2 ∧
    PoolInv ((⟨4, 4, 32, 32, 8, 32⟩ : Pool).dealloc
        (linkSlots 8 8 4 (0, fun _ => 0)).2 9).1
      ((⟨4, 4, 32, 32, 8, 32⟩ : Pool).dealloc
        (linkSlots 8 8 4 (0, fun _ => 0)).2 9).2.1 := by
  have h1 := C7_free_list_invariant.1 8 4 8 (fun _ => 0) ⟨4, 4, 32, 32, 8, 32⟩
    (linkSlots 8 8 4 (0, fun _ => 0)).2 rfl (by decide) (by decide)
  have hL : isChain (linkSlots 8 8 4 (0, fun _ => 0)).2 32 [32, 24, 16, 8] := by
    refine ⟨rfl, by decide, ?_⟩
    rw [show wordRead (linkSlots 8 8 4 (0, fun _ => 0)).2 32 = 24 from by decide]
    refine ⟨rfl, by decide, ?_⟩
    rw [show wordRead (linkSlots 8 8 4 (0, fun _ => 0)).2 24 = 16 from by decide]
    refine ⟨rfl, by decide, ?_⟩
    rw [show wordRead (linkSlots 8 8 4 (0, fun _ => 0)).2 16 = 8 from by decide]
    refine ⟨rfl, by decide, ?_⟩
    rw [show wordRead (linkSlots 8 8 4 (0, fun _ => 0)).2 8 = 0 from by decide]
    rfl
  have hfree : ∀ l, isChain (linkSlots 8 8 4 (0, fun _ => 0)).2
      (⟨4, 4, 32, 32, 8, 32⟩ : Pool).top l → (9 : Nat) ∉ l := by
    intro l hl
    rw [isChain_unique l [32, 24, 16, 8] 32 hl hL]
    decide
  exact ⟨h1, C7_free_list_invariant.2.1 _ _ h1,
    C7_free_list_invariant.2.2 _ _ 9 h1 hfree⟩

/-- C8: immediately after successful construction (inputs in the
non-overflowing range), `free_head` points at the highest-address slot
(index `count - 1`), each slot's stored link points one stride lower
with slot 0 linking to the null sentinel, and with no intervening
releases the `i`-th acquire (0-based index `i`) returns
`region_base + (count - 1 - i) * slot_stride`. -/
theorem C8_bootstrap_order (size count base : Nat) (m : Mem) (p : Pool) (m' : Mem)
    (hsome : Pool.new size count base m = some (p, m'))
    (hb : slotAlign size * count ≤ 2 ^ 63)
    (hbase : base + slotAlign size * count ≤ 2 ^ 64) :
    p.top = p.buffer + (count - 1) * p.stride ∧
    (∀ i, i < count → wordRead m' (p.buffer + i * p.stride)
        = if i = 0 then 0 else p.buffer + (i - 1) * p.stride) ∧
    (∀ i, i < count →
      ((allocN p m' count).2)[i]? = some (p.buffer + (count - 1 - i) * p.stride)) := by
  obtain ⟨he, hc, hbuf, hls, hla, hst, hcpos, htop, hm, hg⟩ := new_facts hsome hb hbase
  have hbound : base + count * slotAlign size ≤ 2 ^ 64 := by
    rw [Nat.mul_comm count (slotAlign size)]; exact hbase
  have hreads := linkSlots_read (slotAlign_ge size) count m hbound
  refine ⟨?_, ?_, ?_⟩
  · rw [htop, descSlots_headD, hbuf, hst]
    simp [Nat.pos_iff_ne_zero.mp hcpos]
  · intro i hi
    rw [hbuf, hst, hm]
    exact hreads i hi
  · intro i hi
    obtain ⟨-, -, l, hch, hlen, -, -⟩ := new_fullFree hsome hb hbase
    have hb0 : base ≠ 0 := (new_some hsome).2.2.1
    have hreads' : ∀ i, i < count →
        wordRead m' (base + i * slotAlign size)
          = if i = 0 then 0 else base + (i - 1) * slotAlign size := by
      rw [hm]
      exact hreads
    have hch₂ : isChain m' ((descSlots base (slotAlign size) count).headD 0)
        (descSlots base (slotAlign size) count) :=
      descSlots_chain hb0 count hreads'
    have hleq : l = descSlots base (slotAlign size) count := by
      refine isChain_unique l _ p.top hch ?_
      rw [htop]
      exact hch₂
    have hcnt : count ≤ l.length := by
      rw [hleq, descSlots_length]
    have hr := allocN_spec p hch count hcnt
    have htake : l.take count = l := by
      apply List.take_of_length_le
      rw [hleq, descSlots_length]
    rw [hr]
    show (l.take count)[i]? = some (p.buffer + (count - 1 - i) * p.stride)
    rw [htake, hleq, descSlots_index base (slotAlign size) count i hi, hbuf, hst]

theorem C8_witness :
    (⟨4, 4, 32, 32, 8, 32⟩ : Pool).top = 8 + 3 * 8 ∧
    wordRead (linkSlots 8 8 4 (0, fun _ => 0)).2 (8 + 0 * 8) = 0 ∧
    ((allocN ⟨4, 4, 32, 32, 8, 32⟩ (linkSlots 8 8 4 (0, fun _ => 0)).2 4).2)[0]?
      = some (8 + 3 * 8) := by
  have h := C8_bootstrap_order 8 4 8 (fun _ => 0) ⟨4, 4, 32, 32, 8, 32⟩
    (linkSlots 8 8 4 (0, fun _ => 0)).2 rfl (by decide) (by decide)
  refine ⟨h.1, ?_, ?_⟩
  · have h2 := h.2.1 0 (by decide)
    simpa using h2
  · have h3 := h.2.2 0 (by decide)
    simpa using h3

/-- C9: the acquire-fill-verify-release cycle is a round trip: on a
freshly constructed pool (inputs in the non-overflowing range),
acquiring every slot, writing byte `i` into slot `i`'s first byte,
reading every byte back, then releasing every slot succeeds, and the
pool it leaves behind runs the identical cycle again — three
consecutive laps all report success. -/
theorem C9_reuse_roundtrip (size count base : Nat) (m : Mem) (p : Pool) (m' : Mem)
    (hsome : Pool.new size count base m = some (p, m'))
    (hb : slotAlign size * count ≤ 2 ^ 63)
    (hbase : base + slotAlign size * count ≤ 2 ^ 64) :
    (cycleN p m' 3).2.2 = true :=
  (cycleN_ok 3 p m' (new_fullFree hsome hb hbase)).1

theorem C9_witness :
    (cycleN ⟨4, 4, 32, 32, 8, 32⟩ (linkSlots 8 8 4 (0, fun _ => 0)).2 3).2.2 = true :=
  C9_reuse_roundtrip 8 4 8 (fun _ => 0) ⟨4, 4, 32, 32, 8, 32⟩
    (linkSlots 8 8 4 (0, fun _ => 0)).2 rfl (by decide) (by decide)

/-- C10 counterexample: the construction arithmetic can wrap.  At
`slot_size = 2 ^ 63`, `slot_count = 2` (64-bit `usize`, release-profile
wrapping semantics) the stride is `2 ^ 63`, the region size
`2 ^ 63 * 2` wraps to `0`, and construction still returns a pool —
whose recorded region size `0` differs from `slot_stride * slot_count
= 2 ^ 64`.  This refutes the claim that the arithmetic stays within the
machine word for every `slot_size ≥ 1`, `slot_count ≥ 1`. -/
theorem C10_counterexample :
    Pool.new (2 ^ 63) 2 8 (fun _ => 0)
      = some (⟨2, 2, 0, 1, 8, 2 ^ 63 + 8⟩,
              (linkSlots 8 (2 ^ 63) 2 (0, fun _ => 0)).2) ∧
    slotAlign (2 ^ 63) * 2 = 2 ^ 64 := by
  constructor
  · rfl
  · decide

/-- C10 (amended): for `slot_size ≥ 1` and `slot_count ≥ 1` whose
derived layout stays within the machine word
(`slot_stride * slot_count ≤ 2 ^ 63`), the construction arithmetic does
not wrap: any constructed pool records a region size of exactly
`slot_stride * slot_count` (below `2 ^ 64`) and a region alignment of
exactly the next power of two of that region size (below `2 ^ 64`). -/
theorem C10_no_overflow_bounded (size count base : Nat) (m : Mem) (p : Pool) (m' : Mem)
    (_hsz : 1 ≤ size) (_hcnt : 1 ≤ count)
    (hb : slotAlign size * count ≤ 2 ^ 63)
    (hsome : Pool.new size count base m = some (p, m')) :
    p.layoutSize = slotAlign size * count ∧ p.layoutSize < 2 ^ 64 ∧
    p.layoutAlign = nextPow2 p.layoutSize ∧ p.layoutAlign < 2 ^ 64 := by
  obtain ⟨-, hc, -, hp, -⟩ := new_some hsome
  have hcpos : 0 < count := Nat.pos_of_ne_zero hc
  have hlt64 : (2 : Nat) ^ 63 < 2 ^ 64 := by norm_num
  have halle : slotAlign size ≤ 2 ^ 63 := by
    have : slotAlign size ≤ slotAlign size * count :=
      Nat.le_mul_of_pos_right _ hcpos
    omega
  have hal64 : slotAlign size % 2 ^ 64 = slotAlign size :=
    Nat.mod_eq_of_lt (by omega)
  have hsz64 : slotAlign size * count % 2 ^ 64 = slotAlign size * count :=
    Nat.mod_eq_of_lt (by omega)
  have hla : nextPow2 (slotAlign size * count) ≤ 2 ^ 63 :=
    nextPow2_le_of_le ⟨63, rfl⟩ hb
  have hla64 : nextPow2 (slotAlign size * count) % 2 ^ 64
      = nextPow2 (slotAlign size * count) := Nat.mod_eq_of_lt (by omega)
  subst hp
  refine ⟨?_, ?_, ?_, ?_⟩
  · show slotAlign size % 2 ^ 64 * count % 2 ^ 64 = slotAlign size * count
    rw [hal64, hsz64]
  · show slotAlign size % 2 ^ 64 * count % 2 ^ 64 < 2 ^ 64
    rw [hal64, hsz64]
    omega
  · show nextPow2 (slotAlign size % 2 ^ 64 * count % 2 ^ 64) % 2 ^ 64
      = nextPow2 (slotAlign size % 2 ^ 64 * count % 2 ^ 64)
    rw [hal64, hsz64, hla64]
  · show nextPow2 (slotAlign size % 2 ^ 64 * count % 2 ^ 64) % 2 ^ 64 < 2 ^ 64
    rw [hal64, hsz64, hla64]
    omega

theorem C10_witness :
    (⟨4, 4, 32, 32, 8, 32⟩ : Pool).layoutSize = slotAlign 8 * 4 ∧
    (⟨4, 4, 32, 32, 8, 32⟩ : Pool).layoutSize < 2 ^ 64 ∧
    (⟨4, 4, 32, 32, 8, 32⟩ : Pool).layoutAlign
      = nextPow2 (⟨4, 4, 32, 32, 8, 32⟩ : Pool).layoutSize ∧
    (⟨4, 4, 32, 32, 8, 32⟩ : Pool).layoutAlign < 2 ^ 64 :=
  C10_no_overflow_bounded 8 4 8 (fun _ => 0) ⟨4, 4, 32, 32, 8, 32⟩
    (linkSlots 8 8 4 (0, fun _ => 0)).2 (by decide) (by decide) (by decide) rfl

end Cwago
